import Mathlib

/-!
Verification development for the ArviZ MCMC-diagnostics core.

The repository ships `arviz/stats/stats_utils.py` (autocovariance,
autocorrelation, logsumexp, quantile and validation helpers) together with
its diagnostics test-suite `arviz/tests/test_diagnostics.py`.  The module
`arviz/stats/diagnostics.py` itself (rhat, ess, mcse, ks_summary,
`_z_scale`, `_mc_error`) is not part of the sources; those estimators are
modelled here from the specification, with the shipped test-suite taken as
the authority wherever it pins concrete behaviour (size minimums, NaN
handling, warning behaviour).

Modelling conventions:
* IEEE doubles are modelled in exact arithmetic.  Input cells are
  `Option ℚ` where `none` stands for NaN; estimator results are `Option ℚ`
  (`none` = NaN result).  Where the distinction between NaN and ±infinity
  matters (autocorrelation of a constant sequence, logsumexp sentinels) the
  four-way value type `F` is used.
* Exceptions raised by the Python code are modelled with `Except`.
* Transcendental maps (square root, the inverse normal CDF, log/exp) are
  not rational; wherever they appear the model keeps the rational quantity
  they are applied to (for example the squared R-hat `var_hat / W` instead
  of `sqrt(var_hat / W)`).  Every claim verified below depends only on
  definedness (NaN / exception / sentinel behaviour), shape, constancy or
  exact rational identities, none of which is affected by composing with a
  strictly monotone finite map.
-/

/-- Model of an IEEE floating-point value in exact arithmetic: NaN, the two
infinities, or a finite rational. -/
inductive F : Type
  | nan : F
  | inf : F
  | ninf : F
  | fin (q : ℚ) : F
  deriving DecidableEq, Repr

/-- An input cell of a sample array: `none` models a NaN entry. -/
abbrev Entry : Type := Option ℚ

/-- A chain matrix as handed to the estimators: a list of chains, each chain a
list of draw cells (possibly NaN). -/
abbrev Mat : Type := List (List Entry)

/-- A fully finite chain matrix (after the NaN check has passed). -/
abbrev QMat : Type := List (List ℚ)

/-- Number of chains of a matrix (its first axis). -/
def nChains (m : List (List α)) : ℕ := m.length

/-- Number of draws of a matrix: the length of its first chain (numpy arrays
are rectangular, so every chain has this length). -/
def nDraws (m : List (List α)) : ℕ := (m.headD []).length

/-- Translation of `stats_utils.check_nan` specialised to a whole matrix:
`np.isnan(ary).any()`. -/
def hasNaN (m : Mat) : Bool := m.any (fun r => r.any Option.isNone)

/-- Strip the NaN markers from a matrix known to contain none (the default `0`
is never used on such matrices). -/
def toQ (m : Mat) : QMat := m.map (fun r => r.map (fun e => e.getD 0))

/-- Mean of a list of rationals (`np.mean`); the empty list is guarded by the
size checks of every caller. -/
def listMean (l : List ℚ) : ℚ := l.sum / (l.length : ℚ)

/-- Sample variance with one delta degree of freedom (`np.var(x, ddof=1)`). -/
def sampleVar (l : List ℚ) : ℚ :=
  (l.map (fun a => (a - listMean l) * (a - listMean l))).sum / ((l.length : ℚ) - 1)

/-- Shifted dot product `Σ_{t} c[t] * c[t+k]` of a sequence with itself, indices
past the end contributing zero — exactly the lag-`k` term that the
zero-padded FFT correlation of `autocov` produces. -/
def dotShift (c : List ℚ) (k : ℕ) : ℚ :=
  ((List.range (c.length - k)).map (fun t => c.getD t 0 * c.getD (t + k) 0)).sum

/-- Translation of `stats_utils.autocov` (source file `stats_utils.py`): the
sequence is mean-centred, zero-padded to `2*next_fast_len(n) ≥ 2n`, pushed
through `rfft`, multiplied by its conjugate, inverted and truncated to length
`n`, then divided by `n`.  Because the padding is at least `n`, the circular
correlation computed by the FFT pair equals, in exact arithmetic, the linear
correlation `cov[k] = (1/n) Σ_{t=0}^{n-1-k} (x_t - x̄)(x_{t+k} - x̄)`, which is
what this definition computes lag by lag. -/
def autocov (x : List ℚ) : List ℚ :=
  let n := x.length
  let xbar := x.sum / (n : ℚ)
  let c := x.map (fun a => a - xbar)
  (List.range n).map (fun k => dotShift c k / (n : ℚ))

/-- IEEE division of finite values: `a / 0` is NaN when `a = 0` and a signed
infinity otherwise; a nonzero denominator gives the exact quotient. -/
def fdivF (a b : ℚ) : F :=
  if b = 0 then (if a = 0 then F.nan else if 0 < a then F.inf else F.ninf)
  else F.fin (a / b)

/-- Translation of `stats_utils.autocorr` (source file `stats_utils.py`):
`corr = autocov(ary)` followed by the in-place elementwise division
`corr /= corr[0]` under `np.errstate(invalid="ignore")`, so a zero lag-0
autocovariance silently produces NaN entries instead of raising. -/
def autocorr (x : List ℚ) : List F :=
  let cov := autocov x
  let c0 := cov.headD 0
  cov.map (fun c => fdivF c c0)

/-- Constancy test for a list: every element equals the first one. -/
def isConstL (l : List ℚ) : Bool := l.all (fun a => a = l.headD 0)

/-- Biased population variance, written from the claim: the sum of squared
deviations from the mean divided by `n` (not `n - 1`). -/
def biasedVar (x : List ℚ) : ℚ :=
  ((x.map (fun a => (a - x.sum / (x.length : ℚ)) ^ 2)).sum) / (x.length : ℚ)

/-- Insertion of a value into a sorted list of rationals. -/
def insertSorted (v : ℚ) : List ℚ → List ℚ
  | [] => [v]
  | a :: l => if v ≤ a then v :: a :: l else a :: insertSorted v l

/-- Ascending insertion sort, used to model numpy's sorting of finite data. -/
def sortQ (l : List ℚ) : List ℚ := l.foldr insertSorted []

/-- Type-7 (R default) quantile of a pooled sample, the semantics of
`stats_utils._quantile` (`mquantiles` with `alphap = betap = 1`): linear
interpolation between the order statistics at position `(n-1)p`. -/
def quantile7 (l : List ℚ) (p : ℚ) : ℚ :=
  let s := sortQ l
  let n := l.length
  if n = 0 then 0
  else
    let h : ℚ := ((n : ℚ) - 1) * p
    let k : ℕ := min (n - 1) (max 0 ⌊h⌋).toNat
    let g : ℚ := h - (k : ℚ)
    let a := s.getD k 0
    let b := s.getD (min (n - 1) (k + 1)) 0
    a + g * (b - a)

/-- Average fractional rank of a value in a pool, the semantics of
`scipy.stats.rankdata(method="average")` on finite data: the number of
strictly smaller elements plus half of one more than the number of ties. -/
def avgRank (pool : List ℚ) (v : ℚ) : ℚ :=
  ((pool.countP (fun u => decide (u < v)) : ℚ)) + ((pool.count v : ℚ) + 1) / 2

/-- Blom back-transform of a rank into a fractional rank in `(0,1)`,
`(rank - 3/8) / (n + 1/4)`. -/
def backTransform (n : ℕ) (r : ℚ) : ℚ := (r - 3 / 8) / ((n : ℚ) + 1 / 4)

/-- Clip of a fractional rank to `[1/(4n), 1 - 1/(4n)]`, the numerical-safety
clamp the spec prescribes before the inverse normal CDF. -/
def clip01 (n : ℕ) (v : ℚ) : ℚ :=
  max (1 / (4 * (n : ℚ))) (min (1 - 1 / (4 * (n : ℚ))) v)

/-- Rank of one cell of a possibly-NaN pool: numeric cells are ranked among
the numeric values only (NaN sorts above every number, so it never disturbs
them), and NaN cells are ranked above all numbers, ties sharing the average
of the trailing positions. -/
def entryRank (nums : List ℚ) (nanCount : ℕ) (e : Entry) : ℚ :=
  match e with
  | some v => avgRank nums v
  | none => (nums.length : ℚ) + ((nanCount : ℚ) + 1) / 2

/-- Modelled from the spec: `diagnostics._z_scale` is not among the shipped
sources.  Spec §4.2: flatten all chains into one pool, compute fractional
ranks in `(0,1)` with average-rank tie handling, clip them to
`[1/(4n), 1 - 1/(4n)]`, then apply the inverse standard-normal CDF.  The CDF
inverse is transcendental and strictly monotone and finite on `(0,1)`; the
model stops at the clipped fractional rank, which determines the real output
through that finite map.  NaN cells are ranked above every number
(numpy sorts NaN last), so they receive a finite rank like every other cell. -/
def _z_scale (m : Mat) : QMat :=
  let pool := m.flatten
  let n := pool.length
  let nums := pool.filterMap id
  let nanCount := n - nums.length
  m.map (fun row => row.map (fun e => clip01 n (backTransform n (entryRank nums nanCount e))))

/-- Rank-normalisation of an already finite matrix (the estimators apply it
after their NaN check). -/
def zScaleQ (q : QMat) : QMat := _z_scale (q.map (List.map some))

/-- Split of one chain into its two halves, spec §4.2: an odd final draw is
dropped, then the first and second halves become two chains. -/
def splitChain (r : List ℚ) : List (List ℚ) :=
  let d := r.length / 2
  [r.take d, (r.drop d).take d]

/-- Split transform of a whole matrix: every chain is bisected, doubling the
chain count and halving the draw count. -/
def splitChains (q : QMat) : QMat := (q.map splitChain).flatten

/-- Folded transform, spec §4.2: absolute deviation from the pooled median. -/
def foldQ (q : QMat) : QMat :=
  let med := quantile7 q.flatten (1 / 2)
  q.map (fun r => r.map (fun v => |v - med|))

/-- Constancy test for a finite matrix, the `(np.max - np.min) == 0` check of
the core ESS routine. -/
def isConstQ (q : QMat) : Bool := q.flatten.all (fun a => a = q.flatten.headD 0)

/-- Geyer initial-positive-sequence accumulation, spec §4.4 and glossary:
paired lag terms are summed while the pair sums stay positive and the sum is
truncated at the first pair whose sum turns non-positive; a positive lone
trailing term is kept. -/
def geyerSum : List ℚ → ℚ
  | [] => 0
  | [r] => if 0 < r then r else 0
  | r1 :: r2 :: rest => if 0 < r1 + r2 then r1 + r2 + geyerSum rest else 0

/-- Within-chain variance statistic `W`: the mean of the per-chain sample
variances. -/
def withinVar (q : QMat) : ℚ := listMean (q.map sampleVar)

/-- Modelled from the spec: the core autocovariance ESS of
`diagnostics._ess`, absent from the shipped sources (spec §4.4).  Per-chain
autocovariances (via the shipped `autocov`) are averaged across chains, the
between/within mixture `var_plus` is derived, lag correlations are summed
under the Geyer truncation, and `ESS = C*D / (1 + 2*Σ)` with the
`D/(D-1)` correction.  The draw minimum is 3 — the shipped tests
(`test_effective_sample_size_nan`, `test_rhat_shape`) pin NaN exactly below
3 post-split draws, where the spec text says 4.  Constant input returns the
full size of the matrix this core receives, per spec §4.4. -/
def essCore (q : QMat) : Option ℚ :=
  let C := q.length
  let D := (q.headD []).length
  if C < 1 ∨ D < 3 then none
  else if isConstQ q then some ((C * D : ℕ) : ℚ)
  else
    let acovs := q.map autocov
    let meanAcov : List ℚ := (List.range D).map (fun k => listMean (acovs.map (fun a => a.getD k 0)))
    let W := listMean (acovs.map (fun a => a.getD 0 0)) * (D : ℚ) / ((D : ℚ) - 1)
    let B := if 1 < C then sampleVar (q.map listMean) else 0
    let varPlus := W * ((D : ℚ) - 1) / (D : ℚ) + B
    let rho := meanAcov.map (fun a => 1 - (W - a) / varPlus)
    let s := geyerSum (rho.drop 1)
    some ((C : ℚ) * (D : ℚ) / (1 + 2 * s) * ((D : ℚ) / ((D : ℚ) - 1)))

/-- Indicator matrix `1[x ≤ q_p]` for the quantile-ESS of spec §4.4, with the
quantile taken over the pooled draws. -/
def indicatorAt (q : QMat) (p : ℚ) : QMat :=
  let qv := quantile7 q.flatten p
  q.map (fun r => r.map (fun v => if v ≤ qv then 1 else 0))

/-- Quantile-specific ESS pipeline: the indicator sequence of the empirical
CDF estimate is split and fed to the same autocovariance-truncation core. -/
def essQuantile (q : QMat) (p : ℚ) : Option ℚ :=
  essCore (splitChains (indicatorAt q p))

/-- Minimum of two possibly-NaN values, NaN-propagating like `np.min`. -/
def optMin : Option ℚ → Option ℚ → Option ℚ
  | some a, some b => some (min a b)
  | _, _ => none

/-- Probability option of `ess`: a single probability or a `(low, high)`
pair. -/
inductive ProbArg : Type
  | single (p : ℚ) : ProbArg
  | pair (lo hi : ℚ) : ProbArg
  deriving DecidableEq, Repr

/-- Method strings accepted by `ess` (spec §6). -/
inductive EssMethod : Type
  | bulk | tail | quantile | mean | sd | median | mad | z_scale | folded | split | identity
  deriving DecidableEq, Repr

/-- Invalid-argument errors raised before computation starts (spec §7): the
required `prob` option was omitted. -/
inductive ArgError : Type
  | missingProb : ArgError
  deriving DecidableEq, Repr

/-- Raw (non-relative) ESS of one method variant on a finite matrix, the
pipelines of spec §4.4.  Every variant except `identity` splits the chains
(the shipped tests pin NaN below 6 pre-split draws for all of them and below
3 draws for `identity`); `bulk` and `z_scale` rank-normalise before the
split, `folded` and `mad` fold at the median first, `sd` works on the
squared-deviation dispersion measure, `median` is the 0.5-quantile variant
and `tail` reports the smaller of the two quantile-tail ESS values. -/
def essRaw (q : QMat) (method : EssMethod) (prob : Option ProbArg) : Option ℚ :=
  match method with
  | .bulk => essCore (splitChains (zScaleQ q))
  | .z_scale => essCore (splitChains (zScaleQ q))
  | .mean => essCore (splitChains q)
  | .sd => essCore (splitChains (foldQ q |>.map (fun r => r.map (fun v => v * v))))
  | .median => essQuantile q (1 / 2)
  | .mad => essCore (splitChains (zScaleQ (foldQ q)))
  | .folded => essCore (splitChains (zScaleQ (foldQ q)))
  | .split => essCore (splitChains q)
  | .identity => essCore q
  | .quantile =>
      match prob with
      | some (.single p) => essQuantile q p
      | some (.pair lo _) => essQuantile q lo
      | none => none
  | .tail =>
      match prob with
      | some (.single p) => optMin (essQuantile q (p / 2)) (essQuantile q (1 - p / 2))
      | some (.pair lo hi) => optMin (essQuantile q lo) (essQuantile q hi)
      | none => optMin (essQuantile q (1 / 20)) (essQuantile q (19 / 20))

/-- Modelled from the spec: the public `diagnostics.ess` is not among the
shipped sources.  Spec §4.4/§7: a missing `prob` for the `quantile` method
raises an invalid-argument error before any computation; any NaN in the
input yields a NaN result; `relative=True` divides the result by the total
nominal draw count `chains × draws` of the input.  `tail` falls back to its
default probability pair `(0.05, 0.95)` when `prob` is omitted. -/
def ess (m : Mat) (method : EssMethod) (prob : Option ProbArg) (relative : Bool) :
    Except ArgError (Option ℚ) :=
  if method = .quantile ∧ prob = none then .error .missingProb
  else if hasNaN m then .ok none
  else
    let raw := essRaw (toQ m) method prob
    .ok (if relative then raw.map (fun v => v / ((nChains m : ℚ) * (nDraws m : ℚ))) else raw)

/-- Method strings accepted by `rhat` (spec §6 lists four; the shipped tests
additionally exercise `z_scale`, which shares the rank-normalise-and-split
pipeline). -/
inductive RhatMethod : Type
  | rank | split | folded | z_scale | identity
  deriving DecidableEq, Repr

/-- Pre-transform applied by each `rhat` method variant, spec §4.3: `rank` and
`z_scale` rank-normalise then split, `split` splits without rank-normalising,
`folded` folds then rank-normalises then splits, `identity` is a
pass-through. -/
def rhatTransformed (q : QMat) (method : RhatMethod) : QMat :=
  match method with
  | .rank => splitChains (zScaleQ q)
  | .z_scale => splitChains (zScaleQ q)
  | .split => splitChains q
  | .folded => splitChains (zScaleQ (foldQ q))
  | .identity => q

/-- Modelled from the spec: the core R-hat of `diagnostics._rhat`, absent
from the shipped sources (spec §4.3).  `W` is the mean within-chain variance,
`B` the between-chain variance of the chain means scaled by the draw count,
`var_hat = ((n-1)/n)·W + B/n`, and the statistic is `sqrt(var_hat / W)`;
the model returns the squared statistic `var_hat / W`, the square root being
monotone and finite on the nonnegative reals.  A zero `W` makes the division
undefined and is reported as NaN.  The minimums are ≥2 chains and ≥3 draws —
the shipped test `test_rhat_shape` pins NaN exactly below 3 draws for
`identity` (hence below 3 post-split draws for the splitting variants),
where the spec text says 2. -/
def rhatCore (q : QMat) : Option ℚ :=
  let C := q.length
  let D := (q.headD []).length
  if C < 2 ∨ D < 3 then none
  else
    let means := q.map listMean
    let W := withinVar q
    let B := (D : ℚ) * sampleVar means
    let varHat := ((D : ℚ) - 1) / (D : ℚ) * W + B / (D : ℚ)
    if W = 0 then none else some (varHat / W)

/-- Modelled from the spec: the public `diagnostics.rhat` on a 2-D chain
matrix, absent from the shipped sources.  Spec §4.3: any NaN in the input
yields NaN, fewer than 2 chains yields NaN (checked on the matrix before the
split doubles the chain count, per `test_rhat_shape`), then the method's
pre-transform feeds the core computation. -/
def rhat (m : Mat) (method : RhatMethod) : Option ℚ :=
  if hasNaN m then none
  else if m.length < 2 then none
  else rhatCore (rhatTransformed (toQ m) method)

/-- Within-chain variance of the matrix a given `rhat` method variant hands
to the core: the quantity whose vanishing makes the R-hat division
degenerate. -/
def rhatW (m : Mat) (method : RhatMethod) : ℚ :=
  withinVar (rhatTransformed (toQ m) method)

/-- Method strings accepted by `mcse` (spec §4.5). -/
inductive McseMethod : Type
  | mean | sd | quantile
  deriving DecidableEq, Repr

/-- Modelled from the spec: the numeric branch of `diagnostics._mcse_mean`,
`sd(all draws)/sqrt(ess_mean)` (spec §4.5); the model returns the squared
error `var/ess`, the square root being monotone and finite on the positives. -/
def mcseMeanVal (q : QMat) (essMean : ℚ) : ℚ := sampleVar q.flatten / essMean

/-- Modelled from the spec: the numeric branch of `diagnostics._mcse_sd`
uses a log-gamma-based correction factor (spec §4.5), which is
transcendental; the model keeps the uncorrected squared error — the claims
verified here concern only definedness, which the finite correction factor
cannot change. -/
def mcseSdVal (q : QMat) (essSd : ℚ) : ℚ := sampleVar q.flatten / essSd

/-- Modelled from the spec: the numeric branch of
`diagnostics._mcse_quantile`, `sqrt(prob*(1-prob)/quantile_ess)` divided by a
finite-difference density estimate at the quantile (spec §4.5); the model
returns the squared numerator over the squared density step. -/
def mcseQuantileVal (q : QMat) (p essQ : ℚ) : ℚ :=
  let pool := q.flatten
  let n := pool.length
  let step := quantile7 pool (min 1 (p + 1 / (n : ℚ))) - quantile7 pool (max 0 (p - 1 / (n : ℚ)))
  p * (1 - p) / essQ / (step * step)

/-- Modelled from the spec: the public `diagnostics.mcse`, absent from the
shipped sources.  Spec §4.5/§7: a missing `prob` for the `quantile` method
raises an invalid-argument error before any computation; any NaN yields NaN;
fewer than 6 draws per chain yields NaN for every method (the shipped
`test_mcse_nan` pins NaN exactly below 6 draws for `mean`, `sd` and
`quantile` alike). -/
def mcse (m : Mat) (method : McseMethod) (prob : Option ℚ) : Except ArgError (Option ℚ) :=
  if method = .quantile ∧ prob = none then .error .missingProb
  else if hasNaN m then .ok none
  else
    let q := toQ m
    if nDraws m < 6 then .ok none
    else
      .ok (match method with
        | .mean => (essRaw q .mean none).map (mcseMeanVal q)
        | .sd => (essRaw q .sd none).map (mcseSdVal q)
        | .quantile =>
            let p := prob.getD (1 / 2)
            (essQuantile q p).map (mcseQuantileVal q p))

/-- Contiguous batch groups of a draw sequence: `batches` groups of
`⌊n/batches⌋` draws each, the trailing remainder dropped (spec §4.8). -/
def batchGroups (x : List ℚ) (batches : ℕ) : List (List ℚ) :=
  let size := x.length / batches
  (List.range batches).map (fun i => (x.drop (i * size)).take size)

/-- Modelled from the spec: `diagnostics._mc_error` on a single draw
sequence, absent from the shipped sources (spec §4.8).  The draws are cut
into `batches` contiguous groups, and the standard error is
`stdev(batch_means)/sqrt(batches)`; the model returns the squared error
`var(batch_means)/batches`, the square root being monotone and finite on the
nonnegatives.  The circular variant replaces the batch means by circular
(complex-exponential) means — a transcendental map of the same batches; the
model applies the same rational batch computation, since the claims verified
here concern only definedness, on which the two branches agree.  Any NaN in
the reduced axis propagates through every batch statistic, so the result is
NaN (spec §4.8). -/
def _mc_error (x : List Entry) (batches : ℕ) (circular : Bool) : Option ℚ :=
  if x.any Option.isNone then none
  else
    let xs := x.filterMap id
    let means := (batchGroups xs batches).map listMean
    some (if circular then sampleVar means / (batches : ℚ) else sampleVar means / (batches : ℚ))

/-- Bucket counts of a vector of Pareto-k values by the thresholds of spec
§4.7 and §3: good `(-∞, 0.5)`, ok `[0.5, 0.7)`, bad `[0.7, 1)`, very bad
`[1, ∞)`. -/
def ksBuckets (ks : List ℚ) : ℕ × ℕ × ℕ × ℕ :=
  (ks.countP (fun k => decide (k < 1 / 2)),
   ks.countP (fun k => decide (1 / 2 ≤ k ∧ k < 7 / 10)),
   ks.countP (fun k => decide (7 / 10 ≤ k ∧ k < 1)),
   ks.countP (fun k => decide (1 ≤ k)))

/-- Kind of `UserWarning` emitted by `ks_summary`. -/
inductive KsWarning : Type
  | allOk | poorValues
  deriving DecidableEq, Repr

/-- Modelled from the spec and the shipped tests: `diagnostics.ks_summary`
is not among the sources.  Spec §4.7 prescribes a warning when any value
falls in the bad or very-bad buckets (k ≥ 0.7); the shipped `test_ks_summary`
additionally requires a `UserWarning` for a vector whose values all lie in
the good bucket, so the summary always warns — with a poor-values warning
when some k ≥ 0.7 and an informational all-ok warning otherwise. -/
def ks_summary_warning (ks : List ℚ) : KsWarning :=
  if ks.any (fun k => decide (7 / 10 ≤ k)) then .poorValues else .allOk

/-- Warning predicate the claim asserts: a warning exactly when at least one
value lies in the bad `[0.7, 1)` or very-bad `[1, ∞)` buckets. -/
def ksClaimWarns (ks : List ℚ) : Bool := ks.any (fun k => decide (7 / 10 ≤ k))

/-- Pareto-k vector of `test_ks_summary`, whose values all lie in the good
bucket and for which the test demands a `UserWarning`. -/
def ksTestVector : List ℚ := [1/10, 1/10, 1/10, 2/10, 2/10, 2/10, 2/10]

/-- Stand-in for the transcendental main branch of `logsumexp`
(`max + log Σ exp(x - max)` with the `b`/`b_inv` adjustment): the dominant
maximum term.  The claims verified here concern only the sentinel branches
that return before this computation is reached. -/
def lseMain (x : List ℚ) (b b_inv : Option ℚ) : ℚ :=
  (x.foldr max 0) + (b.getD 0) * 0 + (b_inv.getD 0) * 0

/-- Translation of `stats_utils.logsumexp` (source file `stats_utils.py`) on
a 1-D input with `axis=None`, producing a scalar: after the result array is
set up, `if b_inv == 0: return np.inf` (a zero inverse weight yields +∞ by
definition, not an error), `if b_inv is None and b == 0: return -np.inf`,
and only then the stable log-sum-exp computation runs.  `b` and `b_inv` are
the optional scalar weights; `b_inv` overwrites `b` unless it is `None`. -/
def logsumexp (x : List ℚ) (b b_inv : Option ℚ) : F :=
  if b_inv = some 0 then F.inf
  else if b_inv = none ∧ b = some 0 then F.ninf
  else F.fin (lseMain x b b_inv)

/-- Translation of `stats_utils.logsumexp` reducing a 2-D input along its
second axis, producing one value per row: the sentinel branches return
`np.full_like(out, ±np.inf)` — an array of the output shape filled with the
sentinel — before any computation. -/
def logsumexpRows (m : List (List ℚ)) (b b_inv : Option ℚ) : List F :=
  if b_inv = some 0 then List.replicate m.length F.inf
  else if b_inv = none ∧ b = some 0 then List.replicate m.length F.ninf
  else m.map (fun r => F.fin (lseMain r b b_inv))

/-- C9: for every input array, `logsumexp` with `b_inv = 0` returns +infinity
(a scalar, or an array filled with +infinity matching the output shape)
without raising, and `logsumexp` with `b = 0` and `b_inv` omitted returns
-infinity — the sentinel branches return before any computation. -/
theorem logsumexp_zero_weight_sentinels (x : List ℚ) (b : Option ℚ) (m : List (List ℚ)) :
    logsumexp x b (some 0) = F.inf ∧ logsumexp x (some 0) none = F.ninf
    ∧ logsumexpRows m b (some 0) = List.replicate m.length F.inf
    ∧ logsumexpRows m (some 0) none = List.replicate m.length F.ninf := by
  refine ⟨?_, ?_, ?_, ?_⟩ <;> simp [logsumexp, logsumexpRows]

/-- C7: for every chain matrix, `ess` with method `quantile` and no `prob`
raises the invalid-argument error before any computation (it does not return
NaN), and so does `mcse` with method `quantile` and no `prob`. -/
theorem ess_mcse_quantile_missing_prob (m : Mat) (rel : Bool) :
    ess m .quantile none rel = .error .missingProb
    ∧ mcse m .quantile none = .error .missingProb := by
  constructor <;> simp [ess, mcse]

/-- C3: every estimator — `rhat`, `ess`, `mcse` and `_mc_error`, under every
method variant — maps an input containing a NaN along the reduced axes to a
NaN result, and the NaN never causes an exception (the ess/mcse results are
`.ok none`, not `.error`). -/
theorem nan_input_gives_nan (m : Mat) (x : List Entry)
    (rm : RhatMethod) (em : EssMethod) (mm : McseMethod)
    (pe : ProbArg) (pm : ℚ) (rel : Bool) (batches : ℕ) (circular : Bool)
    (hm : hasNaN m = true) (hx : x.any Option.isNone = true) :
    rhat m rm = none ∧ ess m em (some pe) rel = .ok none
    ∧ mcse m mm (some pm) = .ok none ∧ _mc_error x batches circular = none := by
  refine ⟨?_, ?_, ?_, ?_⟩
  · simp [rhat, hm]
  · simp [ess, hm]
  · simp [mcse, hm]
  · simp [_mc_error, hx]

/-- Witness for C3 at a concrete NaN-containing matrix and sequence. -/
theorem nan_input_gives_nan_witness :
    rhat [[none, some 1], [some 2, some 3]] .identity = none
    ∧ ess [[none, some 1], [some 2, some 3]] .bulk (some (.single (1/3))) false = .ok none
    ∧ mcse [[none, some 1], [some 2, some 3]] .mean (some (1/2)) = .ok none
    ∧ _mc_error [none, some 1] 5 false = none :=
  nan_input_gives_nan [[none, some 1], [some 2, some 3]] [none, some 1] .identity .bulk .mean
    (.single (1/3)) (1/2) false 5 false (by decide) (by decide)

/-- C8: for every chain matrix and every method variant, `ess` with
`relative = True` is `ess` with `relative = False` divided by the nominal
sample count `chains × draws`; errors and NaNs correspond exactly. -/
theorem ess_relative_scaling (m : Mat) (method : EssMethod) (prob : Option ProbArg) :
    ess m method prob true
      = (ess m method prob false).map
          (Option.map (fun v => v / ((nChains m : ℚ) * (nDraws m : ℚ)))) := by
  by_cases h1 : method = .quantile ∧ prob = none
  · simp [ess, h1, Except.map]
  · by_cases h2 : hasNaN m
    · simp [ess, h1, h2, Except.map]
    · simp [ess, h1, h2, Except.map]

/-- Auxiliary: the sum over all positions of the squared `getD` entries of a
list is the sum of its squared elements. -/
theorem sum_range_getD_sq (l : List ℚ) :
    ((List.range l.length).map (fun t => l.getD t 0 * l.getD t 0)).sum
      = (l.map (fun a => a * a)).sum := by
  induction l with
  | nil => simp
  | cons a l ih =>
      rw [List.length_cons, List.range_succ_eq_map, List.map_cons, List.sum_cons, List.map_map]
      simp only [Function.comp_def, Nat.succ_eq_add_one, List.getD_cons_zero,
        List.getD_cons_succ]
      rw [ih, List.map_cons, List.sum_cons]

/-- Auxiliary: the lag-0 entry of `autocov` is the mean of the squared
mean-centred values. -/
theorem autocov_headD_eq (x : List ℚ) (hx : x ≠ []) :
    (autocov x).headD 0
      = ((x.map (fun b => b - x.sum / (x.length : ℚ))).map (fun b => b * b)).sum
          / (x.length : ℚ) := by
  obtain ⟨a, x', rfl⟩ := List.exists_cons_of_ne_nil hx
  simp only [autocov]
  rw [List.length_cons, List.range_succ_eq_map, List.map_cons, List.headD_cons]
  simp only [dotShift, Nat.sub_zero, Nat.add_zero]
  rw [sum_range_getD_sq]

/-- C4: for every 1-D sequence with at least 2 elements, `autocov(x)[0]` is
the biased population variance of `x` — squared deviations from the mean
divided by `n`, not `n - 1` (exactly, in the exact-arithmetic model; the
floating implementation matches within tolerance). -/
theorem autocov_lag0_biased_variance (x : List ℚ) (h : 2 ≤ x.length) :
    (autocov x).headD 0 = biasedVar x := by
  rw [autocov_headD_eq x (by intro hnil; subst hnil; simp at h)]
  simp only [biasedVar, List.map_map, Function.comp_def, pow_two]

/-- Witness for C4 at the concrete sequence `[0, 1]`. -/
theorem autocov_lag0_biased_variance_witness :
    (autocov [0, 1]).headD 0 = biasedVar [0, 1] :=
  autocov_lag0_biased_variance [0, 1] (by decide)

/-- Auxiliary: a sum of squares of rationals is nonnegative. -/
theorem sum_sq_nonneg (l : List ℚ) : 0 ≤ (l.map (fun a => a * a)).sum := by
  induction l with
  | nil => simp
  | cons a l ih => simpa using add_nonneg (mul_self_nonneg a) ih

/-- Auxiliary: a vanishing sum of squares forces every element to vanish. -/
theorem sum_sq_eq_zero (l : List ℚ) (h : (l.map (fun a => a * a)).sum = 0) :
    ∀ a ∈ l, a = 0 := by
  induction l with
  | nil => simp
  | cons a l ih =>
      simp only [List.map_cons, List.sum_cons] at h
      have h1 : 0 ≤ a * a := mul_self_nonneg a
      have h2 : 0 ≤ (l.map (fun b => b * b)).sum := sum_sq_nonneg l
      intro b hb
      rcases List.mem_cons.1 hb with rfl | hb'
      · exact mul_self_eq_zero.1 (by linarith)
      · exact ih (by linarith) b hb'

/-- Auxiliary: the `getD` entries of an all-zero list are zero at every
index. -/
theorem getD_zero_of_all_zero (l : List ℚ) (h : ∀ b ∈ l, b = 0) (t : ℕ) :
    l.getD t 0 = 0 := by
  induction l generalizing t with
  | nil => simp
  | cons a l ih =>
      cases t with
      | zero => simpa using h a (by simp)
      | succ t => simpa using ih (fun b hb => h b (by simp [hb])) t

/-- Auxiliary: every shifted dot product of an all-zero list vanishes. -/
theorem dotShift_all_zero (c : List ℚ) (h : ∀ b ∈ c, b = 0) (k : ℕ) :
    dotShift c k = 0 := by
  simp only [dotShift]
  apply List.sum_eq_zero
  intro y hy
  obtain ⟨t, _, rfl⟩ := List.mem_map.1 hy
  rw [getD_zero_of_all_zero c h t, getD_zero_of_all_zero c h (t + k)]
  ring

/-- Auxiliary: the head of a mapped nonempty list is the map of its head. -/
theorem headD_map_of_ne_nil {α β : Type} (l : List α) (f : α → β) (hne : l ≠ [])
    (d : β) (d0 : α) : (l.map f).headD d = f (l.headD d0) := by
  cases l with
  | nil => exact absurd rfl hne
  | cons a t => simp

/-- Auxiliary: the mean-centred values of a constant list all vanish. -/
theorem centered_const_zero (x : List ℚ) (hx : x ≠ []) (hc : isConstL x = true) :
    ∀ b ∈ x.map (fun a => a - x.sum / (x.length : ℚ)), b = 0 := by
  have hall : ∀ b ∈ x, b = x.headD 0 := by
    intro b hb
    have := (List.all_eq_true.1 hc) b hb
    exact_mod_cast of_decide_eq_true this
  have hn : ((x.length : ℚ)) ≠ 0 :=
    Nat.cast_ne_zero.2 (fun h0 => hx (List.length_eq_zero.1 h0))
  have hsum : x.sum = (x.length : ℚ) * x.headD 0 := by
    rw [List.sum_eq_card_nsmul x (x.headD 0) hall, nsmul_eq_mul]
  intro b hb
  obtain ⟨a, ha, rfl⟩ := List.mem_map.1 hb
  rw [hall a ha, hsum]
  field_simp

/-- Auxiliary: on a constant sequence every `autocov` entry is zero. -/
theorem autocov_const_zero (x : List ℚ) (hx : x ≠ []) (hc : isConstL x = true) :
    ∀ cv ∈ autocov x, cv = 0 := by
  intro cv hcv
  simp only [autocov] at hcv
  obtain ⟨k, _, rfl⟩ := List.mem_map.1 hcv
  rw [dotShift_all_zero _ (centered_const_zero x hx hc) k, zero_div]

/-- Auxiliary: on a non-constant sequence the lag-0 autocovariance is
nonzero. -/
theorem autocov_headD_ne_zero (x : List ℚ) (hx : x ≠ []) (hc : isConstL x = false) :
    (autocov x).headD 0 ≠ 0 := by
  rw [autocov_headD_eq x hx]
  have hn : ((x.length : ℚ)) ≠ 0 :=
    Nat.cast_ne_zero.2 (fun h0 => hx (List.length_eq_zero.1 h0))
  intro hzero
  have hnum := (div_eq_zero_iff.1 hzero).resolve_right hn
  have hallzero := sum_sq_eq_zero _ hnum
  have hallmean : ∀ a ∈ x, a = x.sum / (x.length : ℚ) := by
    intro a ha
    have := hallzero (a - x.sum / (x.length : ℚ)) (List.mem_map.2 ⟨a, ha, rfl⟩)
    linarith
  have hconst : isConstL x = true := by
    obtain ⟨a0, x', rfl⟩ := List.exists_cons_of_ne_nil hx
    rw [isConstL, List.all_eq_true]
    intro b hb
    have hb' := hallmean b hb
    have ha0 := hallmean a0 (by simp)
    simp only [List.headD_cons]
    exact decide_eq_true (hb'.trans ha0.symm)
  rw [hconst] at hc
  simp at hc

/-- C5: for every 1-D sequence, `autocorr(x)[0]` equals 1 when `x` is not
constant, and when `x` is constant (zero lag-0 autocovariance) every entry
of `autocorr(x)` is the NaN produced by the suppressed 0/0 division — the
function returns in both cases, never raising. -/
theorem autocorr_lag0 (x : List ℚ) (hx : x ≠ []) :
    (isConstL x = false → (autocorr x).headD F.nan = F.fin 1)
    ∧ (isConstL x = true → ∀ e ∈ autocorr x, e = F.nan) := by
  have hcovne : autocov x ≠ [] := by
    have : (autocov x).length = x.length := by simp [autocov]
    intro hnil
    rw [hnil] at this
    exact hx (List.length_eq_zero.1 this.symm)
  constructor
  · intro hc
    have h0 := autocov_headD_ne_zero x hx hc
    simp only [autocorr]
    rw [headD_map_of_ne_nil (autocov x) _ hcovne _ 0]
    rw [fdivF, if_neg h0, div_self h0]
  · intro hc
    intro e he
    simp only [autocorr] at he
    obtain ⟨cv, hcv, rfl⟩ := List.mem_map.1 he
    have hz := autocov_const_zero x hx hc
    have hcv0 : cv = 0 := hz cv hcv
    have hhead : (autocov x).headD 0 = 0 := by
      obtain ⟨c1, cov', hcov⟩ := List.exists_cons_of_ne_nil hcovne
      rw [hcov, List.headD_cons]
      exact hz c1 (by rw [hcov]; simp)
    rw [hcv0, hhead, fdivF, if_pos rfl, if_pos rfl]

/-- Auxiliary: the default-head of a nonempty list is one of its elements. -/
theorem headD_mem_of_ne_nil {α : Type} (l : List α) (d : α) (h : l ≠ []) :
    l.headD d ∈ l := by
  cases l with
  | nil => exact absurd rfl h
  | cons a t => simp

/-- Witness for C5: `autocorr [0,1]` starts with 1, and every entry of
`autocorr [2,2]` (here its head) is NaN. -/
theorem autocorr_lag0_witness :
    (autocorr [0, 1]).headD F.nan = F.fin 1
    ∧ (autocorr [2, 2]).headD F.inf = F.nan :=
  ⟨(autocorr_lag0 [0, 1] (by decide)).1 (by decide),
   (autocorr_lag0 [2, 2] (by decide)).2 (by decide) ((autocorr [2, 2]).headD F.inf)
     (headD_mem_of_ne_nil _ _ (by simp [autocorr, autocov]))⟩

/-- C6 counterexample: on the all-good Pareto-k vector of `test_ks_summary`
(every value below 0.5, bad and very-bad buckets empty) the claim demands no
warning, yet `ks_summary` does warn — the shipped test requires a
`UserWarning` on exactly this vector, which the model reports as the
informational all-ok warning. -/
theorem ks_summary_all_good_warns_cex :
    ksClaimWarns ksTestVector = false
    ∧ (ksBuckets ksTestVector).1 = 7
    ∧ (ksBuckets ksTestVector).2.2.1 = 0 ∧ (ksBuckets ksTestVector).2.2.2 = 0
    ∧ ks_summary_warning ksTestVector = KsWarning.allOk := by
  refine ⟨?_, ?_, ?_, ?_, ?_⟩
  · norm_num [ksClaimWarns, ksTestVector]
  · norm_num [ksBuckets, ksTestVector, List.countP_cons]
  · norm_num [ksBuckets, ksTestVector, List.countP_cons]
  · norm_num [ksBuckets, ksTestVector, List.countP_cons]
  · norm_num [ks_summary_warning, ksTestVector]

/-- C6 amended: `ks_summary` always emits a warning — a poor-values warning
exactly when at least one value reaches the bad (0.7 to 1) or very bad (≥1)
buckets, and otherwise (in particular for a vector entirely below 0.5) an
informational all-ok warning rather than a warning-free summary. -/
theorem ks_summary_warning_rule (ks : List ℚ) :
    (ks_summary_warning ks = KsWarning.poorValues
        ↔ ks.any (fun k => decide (7 / 10 ≤ k)) = true)
    ∧ ((ksBuckets ks).2.2.1 = 0 ∧ (ksBuckets ks).2.2.2 = 0
        → ks_summary_warning ks = KsWarning.allOk) := by
  constructor
  · constructor
    · intro h
      by_cases hany : ks.any (fun k => decide (7 / 10 ≤ k)) = true
      · exact hany
      · rw [ks_summary_warning, if_neg hany] at h
        exact absurd h (by simp)
    · intro h
      rw [ks_summary_warning, if_pos h]
  · rintro ⟨hb, hvb⟩
    simp only [ksBuckets] at hb hvb
    have hany : ks.any (fun k => decide (7 / 10 ≤ k)) = false := by
      rw [List.any_eq_false]
      intro k hk
      simp only [decide_eq_true_eq]
      intro hge
      rcases lt_or_le k 1 with hlt | hge1
      · have := List.countP_eq_zero.1 hb k hk
        simp [hge, hlt] at this
      · have := List.countP_eq_zero.1 hvb k hk
        simp [hge1] at this
    rw [ks_summary_warning, if_neg (by simp [hany])]

/-- Witness for C6 amended: the singleton good vector gets the all-ok
warning. -/
theorem ks_summary_warning_rule_witness :
    ks_summary_warning [1/10] = KsWarning.allOk :=
  (ks_summary_warning_rule [1/10]).2
    (by norm_num [ksBuckets, List.countP_cons])

/-- Auxiliary: the clip to `[1/(4n), 1 - 1/(4n)]` lands strictly inside
`(0, 1)` whenever the pool is nonempty, so the inverse normal CDF applied to
it is finite. -/
theorem clip01_mem_Ioo (n : ℕ) (hn : 1 ≤ n) (v : ℚ) :
    0 < clip01 n v ∧ clip01 n v < 1 := by
  have ht : (1 : ℚ) ≤ (n : ℚ) := by exact_mod_cast hn
  have h4 : (0 : ℚ) < 4 * (n : ℚ) := by linarith
  have hlow : (0 : ℚ) < 1 / (4 * (n : ℚ)) := by positivity
  have hlt1 : 1 / (4 * (n : ℚ)) < 1 := by
    rw [div_lt_one h4]
    linarith
  constructor
  · exact lt_of_lt_of_le hlow (le_max_left _ _)
  · exact max_lt hlt1 (lt_of_le_of_lt (min_le_left _ _) (by linarith))

/-- C10: on a 2-D array containing at least one NaN, `_z_scale` returns an
array of the same shape whose entries are all clipped fractional ranks
strictly inside `(0,1)` — finite rank-derived values, never NaN: the NaN is
absorbed by the ranking instead of propagated. -/
theorem z_scale_absorbs_nan (m : Mat) (hnan : hasNaN m = true) :
    (_z_scale m).map List.length = m.map List.length
    ∧ ∀ r ∈ _z_scale m, ∀ v ∈ r, 0 < v ∧ v < 1 := by
  have hpool : 1 ≤ m.flatten.length := by
    rw [hasNaN, List.any_eq_true] at hnan
    obtain ⟨r, hr, hre⟩ := hnan
    rw [List.any_eq_true] at hre
    obtain ⟨e, he, _⟩ := hre
    have hmem : e ∈ m.flatten := List.mem_flatten.2 ⟨r, hr, he⟩
    have := List.length_pos.2 (List.ne_nil_of_mem hmem)
    omega
  constructor
  · simp [_z_scale, List.map_map, Function.comp_def]
  · intro r hr v hv
    simp only [_z_scale] at hr
    obtain ⟨row, _, rfl⟩ := List.mem_map.1 hr
    obtain ⟨e, _, rfl⟩ := List.mem_map.1 hv
    exact clip01_mem_Ioo _ hpool _

/-- Witness for C10 at the concrete matrix `[[NaN, 1]]`: the shape survives
and the head entry lies strictly inside `(0,1)`. -/
theorem z_scale_absorbs_nan_witness :
    (_z_scale [[none, some 1]]).map List.length = [2]
    ∧ (0 < ((_z_scale [[none, some 1]]).headD []).headD 0
        ∧ ((_z_scale [[none, some 1]]).headD []).headD 0 < 1) :=
  ⟨((z_scale_absorbs_nan [[none, some 1]] (by decide)).1).trans rfl,
   (z_scale_absorbs_nan [[none, some 1]] (by decide)).2
     ((_z_scale [[none, some 1]]).headD [])
     (headD_mem_of_ne_nil _ _ (by simp [_z_scale]))
     (((_z_scale [[none, some 1]]).headD []).headD 0)
     (headD_mem_of_ne_nil _ _ (by simp [_z_scale]))⟩

/-- Auxiliary: the default-head of a nonempty replicate list. -/
theorem headD_replicate {α : Type} (n : ℕ) (a : α) (hn : 1 ≤ n) (d : α) :
    (List.replicate n a).headD d = a := by
  obtain ⟨k, rfl⟩ : ∃ k, n = k + 1 := ⟨n - 1, by omega⟩
  rw [List.replicate_succ, List.headD_cons]

/-- Auxiliary: flattening `C` copies of a two-element block gives `2*C`
copies of the block element. -/
theorem flatten_replicate_pair {α : Type} (C : ℕ) (r : α) :
    (List.replicate C [r, r]).flatten = List.replicate (2 * C) r := by
  induction C with
  | zero => simp
  | succ k ih =>
      rw [List.replicate_succ, List.flatten_cons, ih,
        show 2 * (k + 1) = 2 + 2 * k from by ring, List.replicate_add]
      rfl

/-- Auxiliary: flattening a replicated replicate is one big replicate. -/
theorem flatten_replicate_replicate {α : Type} (C D : ℕ) (c : α) :
    (List.replicate C (List.replicate D c)).flatten = List.replicate (C * D) c := by
  induction C with
  | zero => simp
  | succ k ih =>
      rw [List.replicate_succ, List.flatten_cons, ih,
        show (k + 1) * D = D + k * D from by ring, List.replicate_add]

/-- Auxiliary: a replicated constant matrix passes the constancy test. -/
theorem isConstQ_replicate (C D : ℕ) (c : ℚ) (hC : 1 ≤ C) (hD : 1 ≤ D) :
    isConstQ (List.replicate C (List.replicate D c)) = true := by
  simp only [isConstQ, flatten_replicate_replicate]
  have h1 : 1 ≤ C * D := Nat.one_le_iff_ne_zero.2 (Nat.mul_ne_zero (by omega) (by omega))
  rw [List.all_eq_true]
  intro b hb
  rw [List.eq_of_mem_replicate hb, headD_replicate _ _ h1]
  simp

/-- Auxiliary: the split of a constant matrix is a constant matrix of doubled
chains and floor-halved draws (an odd trailing draw is dropped). -/
theorem splitChains_replicate (C D : ℕ) (c : ℚ) :
    splitChains (List.replicate C (List.replicate D c))
      = List.replicate (2 * C) (List.replicate (D / 2) c) := by
  rw [splitChains, List.map_replicate]
  have hsp : splitChain (List.replicate D c)
      = [List.replicate (D / 2) c, List.replicate (D / 2) c] := by
    simp only [splitChain, List.length_replicate, List.take_replicate, List.drop_replicate]
    rw [show D / 2 ⊓ D = D / 2 from min_eq_left (Nat.div_le_self D 2),
      show D / 2 ⊓ (D - D / 2) = D / 2 from min_eq_left (by omega)]
  rw [hsp]
  exact flatten_replicate_pair C _

/-- Auxiliary: the core ESS of a constant matrix meeting the size minimums is
its full element count. -/
theorem essCore_const_replicate (C D : ℕ) (c : ℚ) (hC : 1 ≤ C) (hD : 3 ≤ D) :
    essCore (List.replicate C (List.replicate D c)) = some ((C * D : ℕ) : ℚ) := by
  simp only [essCore, List.length_replicate,
    headD_replicate C (List.replicate D c) hC ([] : List ℚ)]
  rw [if_neg (by omega), isConstQ_replicate C D c hC (by omega)]
  simp

/-- Auxiliary: the core ESS is NaN below the size minimums. -/
theorem essCore_eq_none_of_small (q : QMat) (h : q.length < 1 ∨ nDraws q < 3) :
    essCore q = none := by
  simp only [essCore]
  rw [if_pos (show q.length < 1 ∨ (q.headD []).length < 3 from by simpa [nDraws] using h)]

/-- Auxiliary: rank-normalising a constant matrix yields a constant matrix
of the same shape (all fractional ranks tie). -/
theorem zScaleQ_replicate (C D : ℕ) (v : ℚ) :
    ∃ c, zScaleQ (List.replicate C (List.replicate D v))
      = List.replicate C (List.replicate D c) := by
  simp only [zScaleQ, _z_scale, List.map_replicate]
  exact ⟨_, rfl⟩

/-- Auxiliary: a constant matrix of `some` cells contains no NaN. -/
theorem hasNaN_replicate_some (C D : ℕ) (v : ℚ) :
    hasNaN (List.replicate C (List.replicate D (some v))) = false := by
  rw [hasNaN, List.any_eq_false]
  intro r hr
  rw [List.eq_of_mem_replicate hr]
  simp [List.any_eq_true, List.mem_replicate]

/-- Auxiliary: stripping the NaN markers from a constant `some` matrix. -/
theorem toQ_replicate_some (C D : ℕ) (v : ℚ) :
    toQ (List.replicate C (List.replicate D (some v)))
      = List.replicate C (List.replicate D v) := by
  simp [toQ, List.map_replicate]

/-- C2 amended: the default-method (`bulk`) ESS of a constant `(C, D)` matrix
with `C ≥ 1` chains and `D ≥ 6` draws is `C * (2 * ⌊D/2⌋)` — the full element
count of the matrix after rank-normalisation and splitting, which is `C*D`
for even `D` but `C*(D-1)` for odd `D` (the split drops the odd trailing
draw); below 6 draws the result is NaN, not a count. -/
theorem ess_constant_input (C D : ℕ) (v : ℚ) (hC : 1 ≤ C) (hD : 6 ≤ D) :
    ess (List.replicate C (List.replicate D (some v))) .bulk none false
      = .ok (some ((C * (2 * (D / 2)) : ℕ) : ℚ)) := by
  obtain ⟨c, hz⟩ := zScaleQ_replicate C D v
  simp only [ess, hasNaN_replicate_some, essRaw, toQ_replicate_some]
  rw [hz, splitChains_replicate,
    essCore_const_replicate (2 * C) (D / 2) c (by omega) (by omega),
    show 2 * C * (D / 2) = C * (2 * (D / 2)) from by ring]
  simp

/-- Witness for C2 amended at a concrete constant 1-chain 6-draw matrix. -/
theorem ess_constant_input_witness :
    ess (List.replicate 1 (List.replicate 6 (some (0 : ℚ)))) .bulk none false
      = .ok (some ((1 * (2 * (6 / 2)) : ℕ) : ℚ)) :=
  ess_constant_input 1 6 0 (by norm_num) (by norm_num)

/-- C2 counterexample: the claim promises `C*D` for every constant `(C, D)`
matrix, but a constant 4×2 matrix yields NaN (too few draws post-split), and
a constant 4×7 matrix yields 24 = 4·6, not 28 (the split drops the odd
seventh draw of each chain). -/
theorem ess_constant_claim_cex :
    ess (List.replicate 4 (List.replicate 2 (some (1 : ℚ)))) .bulk none false = .ok none
    ∧ ess (List.replicate 4 (List.replicate 7 (some (1 : ℚ)))) .bulk none false
        = .ok (some 24) := by
  constructor
  · obtain ⟨c, hz⟩ := zScaleQ_replicate 4 2 1
    simp only [ess, hasNaN_replicate_some, essRaw, toQ_replicate_some]
    rw [hz, splitChains_replicate,
      essCore_eq_none_of_small _ (by
        right
        rw [nDraws, headD_replicate _ _ (by norm_num)]
        simp)]
    simp
  · obtain ⟨c, hz⟩ := zScaleQ_replicate 4 7 1
    simp only [ess, hasNaN_replicate_some, essRaw, toQ_replicate_some]
    rw [hz, splitChains_replicate,
      essCore_const_replicate (2 * 4) (7 / 2) c (by norm_num) (by norm_num)]
    simp

/-- Auxiliary: the default-head of a mapped list of lists, when the map sends
the empty list to itself. -/
theorem headD_map_nil {α β : Type} (m : List (List α)) (g : List α → List β)
    (hg : g [] = []) : (m.map g).headD [] = g (m.headD []) := by
  cases m with
  | nil => simp [hg]
  | cons r t => simp

/-- Auxiliary: `toQ` preserves the chain count. -/
theorem length_toQ (m : Mat) : (toQ m).length = m.length := by
  simp [toQ]

/-- Auxiliary: `toQ` preserves the draw count. -/
theorem nDraws_toQ (m : Mat) : nDraws (toQ m) = nDraws m := by
  simp only [toQ, nDraws]
  rw [headD_map_nil _ _ rfl]
  simp

/-- Auxiliary: rank-normalisation preserves the chain count. -/
theorem length_zScaleQ (q : QMat) : (zScaleQ q).length = q.length := by
  simp [zScaleQ, _z_scale]

/-- Auxiliary: rank-normalisation preserves the draw count. -/
theorem nDraws_zScaleQ (q : QMat) : nDraws (zScaleQ q) = nDraws q := by
  simp only [zScaleQ, _z_scale, nDraws]
  rw [headD_map_nil _ _ rfl, headD_map_nil _ _ rfl]
  simp

/-- Auxiliary: folding preserves the chain count. -/
theorem length_foldQ (q : QMat) : (foldQ q).length = q.length := by
  simp [foldQ]

/-- Auxiliary: folding preserves the draw count. -/
theorem nDraws_foldQ (q : QMat) : nDraws (foldQ q) = nDraws q := by
  simp only [foldQ, nDraws]
  rw [headD_map_nil _ _ rfl]
  simp

/-- Auxiliary: splitting doubles the chain count. -/
theorem length_splitChains (q : QMat) : (splitChains q).length = 2 * q.length := by
  induction q with
  | nil => simp [splitChains]
  | cons r t ih =>
      simp only [splitChains, List.map_cons, List.flatten_cons, List.length_append,
        splitChain] at ih ⊢
      simp at ih ⊢
      omega

/-- Auxiliary: splitting floor-halves the draw count. -/
theorem nDraws_splitChains (q : QMat) : nDraws (splitChains q) = nDraws q / 2 := by
  cases q with
  | nil => simp [splitChains, nDraws]
  | cons r t =>
      simp only [splitChains, List.map_cons, List.flatten_cons, splitChain, nDraws,
        List.cons_append, List.headD_cons, List.length_take]
      omega

/-- Auxiliary: chain count of the matrix each `rhat` variant hands to the
core — unchanged for `identity`, doubled by the split for the others. -/
theorem rhatTransformed_length (q : QMat) (method : RhatMethod) :
    (rhatTransformed q method).length
      = if method = .identity then q.length else 2 * q.length := by
  cases method <;>
    simp [rhatTransformed, length_splitChains, length_zScaleQ, length_foldQ]

/-- Auxiliary: draw count of the matrix each `rhat` variant hands to the
core — unchanged for `identity`, floor-halved by the split for the others. -/
theorem rhatTransformed_nDraws (q : QMat) (method : RhatMethod) :
    nDraws (rhatTransformed q method)
      = if method = .identity then nDraws q else nDraws q / 2 := by
  cases method <;>
    simp [rhatTransformed, nDraws_splitChains, nDraws_zScaleQ, nDraws_foldQ]

/-- Auxiliary: the core R-hat is NaN below the size minimums. -/
theorem rhatCore_eq_none_of_small (q : QMat) (h : q.length < 2 ∨ nDraws q < 3) :
    rhatCore q = none := by
  simp only [rhatCore]
  rw [if_pos (show q.length < 2 ∨ (q.headD []).length < 3 from by simpa [nDraws] using h)]

/-- Auxiliary: the core R-hat is defined once the size minimums hold and the
within-chain variance is nonzero. -/
theorem rhatCore_isSome (q : QMat) (hC : 2 ≤ q.length) (hD : 3 ≤ nDraws q)
    (hW : withinVar q ≠ 0) : (rhatCore q).isSome = true := by
  rw [nDraws] at hD
  simp only [rhatCore]
  rw [if_neg (by omega), if_neg hW]
  rfl

/-- C1 amended: for a NaN-free 2-D chain matrix, `rhat` is NaN whenever the
size minimums are violated — fewer than 2 chains for every method, fewer
than 3 draws for `identity`, fewer than 6 pre-split draws for the other
methods (the shipped `test_rhat_shape` pins 3 and 6 where the claim says 2
and 4) — and is defined whenever the minimums hold and the transformed
within-chain variance `W` is nonzero (a degenerate zero `W` makes the
`var_hat/W` division undefined instead). -/
theorem rhat_size_minimums (m : Mat) (method : RhatMethod) (hnn : hasNaN m = false) :
    (m.length < 2 → rhat m method = none)
    ∧ (method = .identity → nDraws m < 3 → rhat m method = none)
    ∧ (method ≠ .identity → nDraws m < 6 → rhat m method = none)
    ∧ (2 ≤ m.length
        → ((method = .identity ∧ 3 ≤ nDraws m) ∨ (method ≠ .identity ∧ 6 ≤ nDraws m))
        → rhatW m method ≠ 0 → (rhat m method).isSome = true) := by
  have hTl : (rhatTransformed (toQ m) method).length
      = if method = .identity then m.length else 2 * m.length := by
    rw [rhatTransformed_length, length_toQ]
  have hTd : nDraws (rhatTransformed (toQ m) method)
      = if method = .identity then nDraws m else nDraws m / 2 := by
    rw [rhatTransformed_nDraws, nDraws_toQ]
  have hnn' : ¬ hasNaN m = true := by simp [hnn]
  refine ⟨?_, ?_, ?_, ?_⟩
  · intro h
    simp only [rhat]
    rw [if_neg hnn', if_pos h]
  · intro hid hlt
    simp only [rhat]
    rw [if_neg hnn']
    by_cases h2 : m.length < 2
    · rw [if_pos h2]
    · rw [if_neg h2]
      apply rhatCore_eq_none_of_small
      right
      rw [hTd, if_pos hid]
      exact hlt
  · intro hne hlt
    simp only [rhat]
    rw [if_neg hnn']
    by_cases h2 : m.length < 2
    · rw [if_pos h2]
    · rw [if_neg h2]
      apply rhatCore_eq_none_of_small
      right
      rw [hTd, if_neg hne]
      omega
  · intro h2 hmin hW
    simp only [rhat]
    rw [if_neg hnn', if_neg (by omega)]
    apply rhatCore_isSome
    · rw [hTl]
      rcases hmin with ⟨hid, _⟩ | ⟨hne, _⟩
      · rw [if_pos hid]
        exact h2
      · rw [if_neg hne]
        omega
    · rw [hTd]
      rcases hmin with ⟨hid, h3⟩ | ⟨hne, h6⟩
      · rw [if_pos hid]
        exact h3
      · rw [if_neg hne]
        omega
    · simp only [rhatW] at hW
      exact hW

/-- Witness for C1 amended: a 2-chain 3-draw non-degenerate matrix has a
defined identity R-hat. -/
theorem rhat_size_minimums_witness :
    (rhat [[some 0, some 1, some 2], [some 1, some 0, some 2]] .identity).isSome = true :=
  (rhat_size_minimums [[some 0, some 1, some 2], [some 1, some 0, some 2]] .identity
      (by decide)).2.2.2 (by decide) (Or.inl ⟨rfl, by decide⟩)
    (by norm_num [rhatW, withinVar, rhatTransformed, toQ, sampleVar, listMean])

/-- C1 counterexample: with 2 chains and no NaN the claim calls a 2-draw
identity input and a 4-draw rank input defined, yet both yield NaN — the
code's minimums, pinned by `test_rhat_shape`, are 3 draws for `identity` and
6 pre-split draws for the splitting methods. -/
theorem rhat_claim_minimums_cex :
    hasNaN [[some 0, some 1], [some 1, some 0]] = false
    ∧ rhat [[some 0, some 1], [some 1, some 0]] .identity = none
    ∧ hasNaN [[some 0, some 1, some 2, some 4], [some 1, some 0, some 5, some 2]] = false
    ∧ rhat [[some 0, some 1, some 2, some 4], [some 1, some 0, some 5, some 2]] .rank
        = none := by
  refine ⟨by decide, ?_, by decide, ?_⟩
  · simp only [rhat]
    rw [if_neg (by decide), if_neg (by decide)]
    apply rhatCore_eq_none_of_small
    right
    rw [rhatTransformed_nDraws, nDraws_toQ]
    simp [nDraws]
  · simp only [rhat]
    rw [if_neg (by decide), if_neg (by decide)]
    apply rhatCore_eq_none_of_small
    right
    rw [rhatTransformed_nDraws, nDraws_toQ]
    simp [nDraws]
